import Mathlib

/-!
Verification of the proof-generation core (`src/prove.rs`).

A shallow embedding of the prover from `src/prove.rs` of andreivcodes/post-rs.

Conventions of the embedding:
* Machine integers (`u8`, `u32`, `u64`, `usize`) are `Nat`; wrap-around is written
  explicitly as `% 2 ^ 32` (etc.) at the places where the Rust arithmetic can
  overflow, and theorems carry the typing bounds (`< 2 ^ 32`, ...) as hypotheses.
* Byte strings (`[u8]`, `Vec<u8>`) are `List Nat`, each entry a byte value.
* Fallible Rust functions returning `eyre::Result` become `Except`.
* The AES key derivations of `AesCipher::new` / `AesCipher::new_lazy`
  (`src/cipher.rs`, not among the sources) are kept abstract: the key-derivation
  functions are explicit parameters producing the 16-byte block encryption
  function of the scheduled key.  The fields `nonce_group` and `pow` stored in
  an `AesCipher` are modelled from the spec (§3 data model).
* The stateful `FnMut` callback `consume` is modelled as an explicit
  state-passing function `σ → Nat → Nat → σ × Option (List Nat)`.
-/

/-- Little-endian interpretation of a byte list as an unsigned integer
(the first byte is least significant); bytes are clamped to 8 bits. -/
def leU64 (bytes : List Nat) : Nat :=
  bytes.foldr (fun b acc => acc * 256 + b % 256) 0

/-- Structural helper for `chunksExact`: the fuel only bounds the recursion
depth (any fuel `≥ l.length` gives the same result) and keeps the function
kernel-computable. -/
def chunksExactAux (fuel n : Nat) (l : List α) : List (List α) :=
  match fuel with
  | 0 => []
  | fuel + 1 =>
    if 0 < n ∧ n ≤ l.length then
      l.take n :: chunksExactAux fuel n (l.drop n)
    else
      []

/-- `slice::chunks_exact`: successive sub-lists of length `n`; a final
fragment shorter than `n` is dropped (see `chunksExact_eq` for the defining
recurrence). -/
def chunksExact (n : Nat) (l : List α) : List (List α) :=
  chunksExactAux l.length n l

theorem chunksExactAux_congr (n : Nat) : ∀ (f1 f2 : Nat) (l : List α),
    l.length ≤ f1 → l.length ≤ f2 → chunksExactAux f1 n l = chunksExactAux f2 n l := by
  intro f1
  induction f1 with
  | zero =>
    intro f2 l h1 h2
    have hnil : l = [] := List.eq_nil_of_length_eq_zero (by omega)
    subst hnil
    cases f2 with
    | zero => rfl
    | succ f2 =>
      simp only [chunksExactAux]
      rw [if_neg (by simp; omega)]
  | succ f1 ih =>
    intro f2 l h1 h2
    cases f2 with
    | zero =>
      have hnil : l = [] := List.eq_nil_of_length_eq_zero (by omega)
      subst hnil
      simp only [chunksExactAux]
      rw [if_neg (by simp; omega)]
    | succ f2 =>
      simp only [chunksExactAux]
      by_cases hc : 0 < n ∧ n ≤ l.length
      · rw [if_pos hc, if_pos hc]
        congr 1
        exact ih f2 (l.drop n) (by simp only [List.length_drop]; omega)
          (by simp only [List.length_drop]; omega)
      · rw [if_neg hc, if_neg hc]

/-- The recurrence of `chunks_exact`. -/
theorem chunksExact_eq (n : Nat) (l : List α) :
    chunksExact n l =
      if 0 < n ∧ n ≤ l.length then l.take n :: chunksExact n (l.drop n) else [] := by
  unfold chunksExact
  cases hlen : l.length with
  | zero =>
    simp only [chunksExactAux]
    rw [if_neg (by omega)]
  | succ k =>
    simp only [chunksExactAux]
    rw [hlen]
    by_cases hc : 0 < n ∧ n ≤ k + 1
    · rw [if_pos hc, if_pos hc]
      congr 1
      exact chunksExactAux_congr n k (l.drop n).length (l.drop n)
        (by simp only [List.length_drop]; omega) (le_refl _)
    · rw [if_neg hc, if_neg hc]

/-- Feed an emission list to a stateful `consume` callback, stopping at the
first call that returns a finalized index list (the early-return contract of
`Prover8_56::prove`). -/
def feed (consume : σ → Nat → Nat → σ × Option (List Nat)) :
    σ → List (Nat × Nat) → σ × Option (Nat × List Nat)
  | st, [] => (st, none)
  | st, (n, i) :: rest =>
    match consume st n i with
    | (st2, some l) => (st2, some (n, l))
    | (st2, none) => feed consume st2 rest

/-- An AES-128 cipher instance as used by `prove.rs`: the scheduled key is
represented by its block-encryption function on 16-byte blocks, together with
the originating `nonce_group` and the `pow` value (spec §3 data model). -/
structure AesCipher where
  aes : List Nat → List Nat
  nonce_group : Nat
  pow : Nat

/-- The key-derivation function of the primary cipher:
`(challenge, nonce_group, pow) ↦` block encryption function. -/
def KdfPrimary : Type := List Nat → Nat → Nat → List Nat → List Nat

/-- The key-derivation function of the secondary ("lazy") cipher:
`(challenge, nonce, nonce_group, pow) ↦` block encryption function. -/
def KdfLazy : Type := List Nat → Nat → Nat → Nat → List Nat → List Nat

/-- Modelled from the spec: `AesCipher::new` (`src/cipher.rs` is not among the
sources).  Per §3/§4.2 it schedules the primary key derived from
`(challenge, nonce_group, pow)` and records the originating `nonce_group` and
`pow`.  The key schedule itself stays abstract in the parameter `kdf`. -/
def AesCipher.new (kdf : KdfPrimary) (challenge : List Nat) (nonce_group pow : Nat) :
    AesCipher :=
  ⟨kdf challenge nonce_group pow, nonce_group, pow⟩

/-- Modelled from the spec: `AesCipher::new_lazy` (`src/cipher.rs` is not among
the sources).  Per §3/§4.2 it schedules the secondary key derived from
`(challenge, nonce, nonce_group, pow)` and records `nonce_group` and `pow`. -/
def AesCipher.new_lazy (kdf : KdfLazy) (challenge : List Nat) (nonce nonce_group pow : Nat) :
    AesCipher :=
  ⟨kdf challenge nonce nonce_group pow, nonce_group, pow⟩

/-- Placeholder cipher standing in for the value of a `Vec` access that would
panic in Rust; the development proves such accesses are never out of bounds
for constructed provers. -/
def dummyCipher : AesCipher :=
  ⟨fun _ => [], 0, 0⟩

/-- The error of the external PoW oracle (spec §6: `PoWError`). -/
inductive PowError where
  | notFound
deriving DecidableEq

/-- Errors of prover construction (`eyre` errors in the source, classified as
in spec §7). -/
inductive ProveError where
  | invalidNonceRange
  | pow (e : PowError)
deriving DecidableEq

/-- Modelled from the spec: interface of the external PoW oracle (§6):
`prove(nonce_group: u32, challenge_prefix: [u8; 8], difficulty: [u8; 32]) ->
Result<u64, PoWError>`.  The `nonce_group.try_into()` in `Prover8_56::new`
converts `u32` to the oracle's `u32` argument and cannot fail. -/
def PowOracle : Type := Nat → List Nat → List Nat → Except PowError Nat

/-- `U256::from_big_endian` (crate `primitive_types`): big-endian byte list to
integer; bytes are clamped to 8 bits. -/
def u256_from_big_endian (bytes : List Nat) : Nat :=
  bytes.foldl (fun acc b => acc * 256 + b % 256) 0

/-- `U256::to_big_endian` (crate `primitive_types`): integer to its 32-byte
big-endian representation. -/
def u256_to_big_endian (x : Nat) : List Nat :=
  (List.range 32).map fun i => x / 256 ^ (31 - i) % 256

/-- `ProvingParams` of `prove.rs`: the 64-bit label difficulty and the 32-byte
PoW difficulty target. -/
structure ProvingParams where
  difficulty : Nat
  pow_difficulty : List Nat

/-- The `pow_difficulty` computation of `ProvingParams::new`
(`prove.rs` lines 57-68): big-endian division of `cfg.pow_difficulty` by
`metadata.num_units`, re-encoded big-endian.  The `difficulty` field is
produced by `proving_difficulty` (in `difficulty.rs`, outside the sources) and
is not needed by any claim about this function. -/
def ProvingParams.new_pow_difficulty (cfg_pow_difficulty : List Nat) (num_units : Nat) :
    List Nat :=
  u256_to_big_endian (u256_from_big_endian cfg_pow_difficulty / num_units)

/-- `Prover8_56::NONCES_PER_AES`. -/
def NONCES_PER_AES : Nat := 16

/-- `calc_nonce` (`prove.rs` lines 79-82). -/
def calc_nonce (nonce_group per_aes offset : Nat) : Nat :=
  nonce_group * per_aes + offset % per_aes

/-- `calc_nonce_group` (`prove.rs` lines 84-87). -/
def calc_nonce_group (nonce per_aes : Nat) : Nat :=
  nonce / per_aes

/-- `nonce_group_range` (`prove.rs` lines 89-94).  The `u32` additions
`start_group + 1` and `nonces.end + per_aes - 1` are wrapping (`% 2 ^ 32`),
matching released-build Rust semantics; a checked build panics at exactly the
inputs where the wrap occurs. -/
def nonce_group_range (start stop per_aes : Nat) : Nat × Nat :=
  let start_group := start / per_aes
  let end_group := max ((start_group + 1) % 2 ^ 32) ((stop + per_aes - 1) % 2 ^ 32 / per_aes)
  (start_group, end_group)

/-- The list of nonce groups `Prover8_56::new` iterates: the Rust range
`nonce_group_range(nonces, NONCES_PER_AES)` as a list. -/
def groupsOf (start stop : Nat) : List Nat :=
  List.range' (nonce_group_range start stop NONCES_PER_AES).1
    ((nonce_group_range start stop NONCES_PER_AES).2 -
      (nonce_group_range start stop NONCES_PER_AES).1)

/-- `Prover8_56` (`prove.rs` lines 96-102). -/
structure Prover8_56 where
  ciphers : List AesCipher
  lazy_ciphers : List AesCipher
  difficulty_msb : Nat
  difficulty_lsb : Nat

/-- `Prover8_56::split_difficulty` (`prove.rs` lines 158-160):
`((difficulty >> 56) as u8, difficulty & 0x00ffffffffffffff)`. -/
def split_difficulty (difficulty : Nat) : Nat × Nat :=
  ((difficulty >>> 56) % 256, difficulty &&& 0x00ffffffffffffff)

/-- The primary-cipher construction loop of `Prover8_56::new`
(lines 123-135): for each nonce group, query the PoW oracle and build the
primary cipher; `collect::<eyre::Result<_>>` stops at the first failure. -/
def collectCiphers (kdfP : KdfPrimary) (powProve : PowOracle)
    (challenge : List Nat) (pow_difficulty : List Nat) :
    List Nat → Except ProveError (List AesCipher)
  | [] => .ok []
  | g :: gs =>
    match powProve g (challenge.take 8) pow_difficulty with
    | .error e => .error (.pow e)
    | .ok pow =>
      match collectCiphers kdfP powProve challenge pow_difficulty gs with
      | .error e => .error e
      | .ok rest => .ok (AesCipher.new kdfP challenge g pow :: rest)

/-- `Prover8_56::new` (`prove.rs` lines 107-156).  `start`/`stop` are the
`u32` endpoints of the nonce range. -/
def Prover8_56.new (kdfP : KdfPrimary) (kdfL : KdfLazy) (powProve : PowOracle)
    (challenge : List Nat) (start stop : Nat) (params : ProvingParams) :
    Except ProveError Prover8_56 :=
  if start % NONCES_PER_AES ≠ 0 then .error .invalidNonceRange
  else if ¬(start < stop ∧ (stop - start) % NONCES_PER_AES = 0) then .error .invalidNonceRange
  else
    match collectCiphers kdfP powProve challenge params.pow_difficulty (groupsOf start stop) with
    | .error e => .error e
    | .ok ciphers =>
      let lazy_ciphers := (List.range' start (stop - start)).map fun nonce =>
        let nonce_group := calc_nonce_group nonce NONCES_PER_AES
        AesCipher.new_lazy kdfL challenge nonce nonce_group
          ((ciphers.getD (nonce_group % ciphers.length) dummyCipher).pow)
      let msb_lsb := split_difficulty params.difficulty
      .ok ⟨ciphers, lazy_ciphers, msb_lsb.1, msb_lsb.2⟩

/-- `Prover8_56::cipher` (`prove.rs` lines 162-166). -/
def Prover8_56.cipher (p : Prover8_56) (nonce : Nat) : Option AesCipher :=
  p.ciphers[calc_nonce_group nonce NONCES_PER_AES % p.ciphers.length]?

/-- `Prover8_56::lazy_cipher` (`prove.rs` lines 168-172). -/
def Prover8_56.lazy_cipher (p : Prover8_56) (nonce : Nat) : Option AesCipher :=
  p.lazy_ciphers[nonce % p.lazy_ciphers.length]?

/-- `Prover8_56::get_pow` (`prove.rs` lines 205-207). -/
def Prover8_56.get_pow (p : Prover8_56) (nonce : Nat) : Option Nat :=
  (p.cipher nonce).map AesCipher.pow

/-- ECB encryption of a multi-block chunk: `encrypt_padded_b2b::<NoPadding>`
encrypts each 16-byte block independently. -/
def encryptChunk (aes : List Nat → List Nat) (chunk : List Nat) : List Nat :=
  ((chunksExact 16 chunk).map aes).flatten

/-- The comparison at the heart of `Prover8_56::check_lsb` (`prove.rs` lines
186-194): encrypt the label under `lazy_cipher(nonce)` (the `.unwrap()` is
modelled by `getD dummyCipher`; totality of the lookup for constructed provers
is proved separately), read the first 8 output bytes as a little-endian `u64`,
mask to the low 56 bits and compare against `difficulty_lsb`. -/
def lsbTest (p : Prover8_56) (label : List Nat) (nonce : Nat) : Prop :=
  leU64 (((p.lazy_ciphers.getD (nonce % p.lazy_ciphers.length) dummyCipher).aes label).take 8) &&&
    0x00ffffffffffffff < p.difficulty_lsb

instance (p : Prover8_56) (label : List Nat) (nonce : Nat) :
    Decidable (lsbTest p label nonce) :=
  Nat.decLt _ _

/-- `Prover8_56::check_lsb` (`prove.rs` lines 175-201). -/
def Prover8_56.check_lsb (p : Prover8_56) (label : List Nat) (nonce nonce_offset base_index : Nat)
    (consume : σ → Nat → Nat → σ × Option (List Nat)) (st : σ) :
    σ × Option (Nat × List Nat) :=
  if lsbTest p label nonce then
    match consume st nonce (base_index + nonce_offset / NONCES_PER_AES) with
    | (st2, some indexes) => (st2, some (nonce, indexes))
    | (st2, none) => (st2, none)
  else (st, none)

/-- The inner offset loop of `Prover8_56::prove` (lines 219-245):
iterate the 128 bytes of the encryption buffer `u`. -/
def proveOffsets (p : Prover8_56) (c : AesCipher) (chunk u : List Nat) (index : Nat)
    (consume : σ → Nat → Nat → σ × Option (List Nat)) :
    σ → List Nat → σ × Option (Nat × List Nat)
  | st, [] => (st, none)
  | st, o :: rest =>
    let msb := u.getD o 0
    if msb ≤ p.difficulty_msb then
      if msb = p.difficulty_msb then
        match p.check_lsb ((chunk.drop (o / NONCES_PER_AES * 16)).take 16)
            (calc_nonce c.nonce_group NONCES_PER_AES o) o index consume st with
        | (st2, some r) => (st2, some r)
        | (st2, none) => proveOffsets p c chunk u index consume st2 rest
      else
        match consume st (calc_nonce c.nonce_group NONCES_PER_AES o) (index + o / NONCES_PER_AES) with
        | (st2, some l) => (st2, some (calc_nonce c.nonce_group NONCES_PER_AES o, l))
        | (st2, none) => proveOffsets p c chunk u index consume st2 rest
    else proveOffsets p c chunk u index consume st rest

/-- The cipher loop of `Prover8_56::prove` (lines 216-246): encrypt the chunk
under each primary cipher and scan the 128 buffer bytes. -/
def proveOneChunk (p : Prover8_56) (chunk : List Nat) (index : Nat)
    (consume : σ → Nat → Nat → σ × Option (List Nat)) :
    σ → List AesCipher → σ × Option (Nat × List Nat)
  | st, [] => (st, none)
  | st, c :: rest =>
    match proveOffsets p c chunk (encryptChunk c.aes chunk) index consume st (List.range 128) with
    | (st2, some r) => (st2, some r)
    | (st2, none) => proveOneChunk p chunk index consume st2 rest

/-- The chunk loop of `Prover8_56::prove` (lines 215-248): after every
128-byte chunk the running label index advances by `AES_BATCH = 8`. -/
def proveChunks (p : Prover8_56) (consume : σ → Nat → Nat → σ × Option (List Nat)) :
    σ → Nat → List (List Nat) → σ × Option (Nat × List Nat)
  | st, _, [] => (st, none)
  | st, index, chunk :: rest =>
    match proveOneChunk p chunk index consume st p.ciphers with
    | (st2, some r) => (st2, some r)
    | (st2, none) => proveChunks p consume st2 (index + 8) rest

/-- `Prover8_56::prove` (`prove.rs` lines 209-251). -/
def Prover8_56.prove (p : Prover8_56) (batch : List Nat) (index : Nat)
    (consume : σ → Nat → Nat → σ × Option (List Nat)) (st : σ) :
    σ × Option (Nat × List Nat) :=
  proveChunks p consume st index (chunksExact 128 batch)

/-- The emission decision of the offset-loop body (`prove.rs` lines 219-245)
for a single buffer byte: `some (nonce, index)` when the byte passes the MSB
test (strictly, or with a passing LSB tiebreak), `none` otherwise. -/
def emitOff (p : Prover8_56) (c : AesCipher) (chunk u : List Nat) (index o : Nat) :
    Option (Nat × Nat) :=
  let msb := u.getD o 0
  if msb ≤ p.difficulty_msb then
    if msb = p.difficulty_msb then
      if lsbTest p ((chunk.drop (o / NONCES_PER_AES * 16)).take 16)
          (calc_nonce c.nonce_group NONCES_PER_AES o) then
        some (calc_nonce c.nonce_group NONCES_PER_AES o, index + o / NONCES_PER_AES)
      else none
    else some (calc_nonce c.nonce_group NONCES_PER_AES o, index + o / NONCES_PER_AES)
  else none

/-- The emissions of one chunk, over all primary ciphers in order. -/
def chunkEmissions (p : Prover8_56) (chunk : List Nat) (index : Nat) : List (Nat × Nat) :=
  p.ciphers.flatMap fun c =>
    (List.range 128).filterMap (emitOff p c chunk (encryptChunk c.aes chunk) index)

/-- The emissions of a chunk list, the base index advancing by 8 per chunk. -/
def emissionsFrom (p : Prover8_56) : Nat → List (List Nat) → List (Nat × Nat)
  | _, [] => []
  | index, chunk :: rest => chunkEmissions p chunk index ++ emissionsFrom p (index + 8) rest

theorem feed_append (consume : σ → Nat → Nat → σ × Option (List Nat)) (st : σ)
    (l1 l2 : List (Nat × Nat)) :
    feed consume st (l1 ++ l2) =
      match feed consume st l1 with
      | (st2, some r) => (st2, some r)
      | (st2, none) => feed consume st2 l2 := by
  induction l1 generalizing st with
  | nil => simp [feed]
  | cons hd tl ih =>
    obtain ⟨n, i⟩ := hd
    simp only [List.cons_append, feed]
    rcases hcall : consume st n i with ⟨st2, res⟩
    cases res <;> simp [ih]

theorem check_lsb_eq_feed (p : Prover8_56) (label : List Nat) (nonce o index : Nat)
    (consume : σ → Nat → Nat → σ × Option (List Nat)) (st : σ) :
    p.check_lsb label nonce o index consume st =
      if lsbTest p label nonce then
        feed consume st [(nonce, index + o / NONCES_PER_AES)]
      else (st, none) := by
  rcases hcall : consume st nonce (index + o / NONCES_PER_AES) with ⟨st2, res⟩
  cases res <;> simp [Prover8_56.check_lsb, feed, hcall]

theorem proveOffsets_eq_feed (p : Prover8_56) (c : AesCipher) (chunk u : List Nat)
    (index : Nat) (consume : σ → Nat → Nat → σ × Option (List Nat))
    (offsets : List Nat) (st : σ) :
    proveOffsets p c chunk u index consume st offsets =
      feed consume st (offsets.filterMap (emitOff p c chunk u index)) := by
  induction offsets generalizing st with
  | nil => simp [proveOffsets, feed]
  | cons o rest ih =>
    simp only [proveOffsets, List.filterMap_cons, emitOff]
    by_cases h1 : u.getD o 0 ≤ p.difficulty_msb
    · by_cases h2 : u.getD o 0 = p.difficulty_msb
      · simp only [h1, h2, if_true, if_pos]
        rw [check_lsb_eq_feed]
        by_cases h3 : lsbTest p ((chunk.drop (o / NONCES_PER_AES * 16)).take 16)
            (calc_nonce c.nonce_group NONCES_PER_AES o)
        · simp only [h3, if_pos, feed]
          rcases hcall : consume st (calc_nonce c.nonce_group NONCES_PER_AES o)
            (index + o / NONCES_PER_AES) with ⟨st2, res⟩
          cases res <;> simp [feed, hcall, ih]
        · simp [h3, ih]
      · simp only [h1, h2, if_true, if_false, if_neg h2, feed]
        rcases hcall : consume st (calc_nonce c.nonce_group NONCES_PER_AES o)
          (index + o / NONCES_PER_AES) with ⟨st2, res⟩
        cases res <;> simp [feed, hcall, ih]
    · have h2 : ¬ u.getD o 0 = p.difficulty_msb := fun h => h1 (le_of_eq h)
      simp only [List.getD_eq_getElem?_getD] at h1 h2
      simp [h1, h2, ih]

theorem proveOneChunk_eq_feed (p : Prover8_56) (chunk : List Nat) (index : Nat)
    (consume : σ → Nat → Nat → σ × Option (List Nat)) (cs : List AesCipher) (st : σ) :
    proveOneChunk p chunk index consume st cs =
      feed consume st (cs.flatMap fun c =>
        (List.range 128).filterMap (emitOff p c chunk (encryptChunk c.aes chunk) index)) := by
  induction cs generalizing st with
  | nil => simp [proveOneChunk, feed]
  | cons c rest ih =>
    simp only [proveOneChunk, List.flatMap_cons, feed_append, proveOffsets_eq_feed]
    rcases hfeed : feed consume st
      ((List.range 128).filterMap (emitOff p c chunk (encryptChunk c.aes chunk) index))
      with ⟨st2, res⟩
    cases res <;> simp [ih]

theorem proveChunks_eq_feed (p : Prover8_56)
    (consume : σ → Nat → Nat → σ × Option (List Nat))
    (chunks : List (List Nat)) (index : Nat) (st : σ) :
    proveChunks p consume st index chunks =
      feed consume st (emissionsFrom p index chunks) := by
  induction chunks generalizing st index with
  | nil => simp [proveChunks, emissionsFrom, feed]
  | cons chunk rest ih =>
    simp only [proveChunks, emissionsFrom, feed_append, proveOneChunk_eq_feed, chunkEmissions]
    rcases hfeed : feed consume st (chunkEmissions p chunk index) with ⟨st2, res⟩
    simp only [chunkEmissions] at hfeed
    rw [hfeed]
    cases res <;> simp [ih]

/-- `Prover8_56::prove` is the early-stopping consumption of its emission
trace. -/
theorem prove_eq_feed (p : Prover8_56) (batch : List Nat) (index : Nat)
    (consume : σ → Nat → Nat → σ × Option (List Nat)) (st : σ) :
    p.prove batch index consume st =
      feed consume st (emissionsFrom p index (chunksExact 128 batch)) := by
  unfold Prover8_56.prove
  exact proveChunks_eq_feed p consume (chunksExact 128 batch) index st

theorem collectCiphers_ok_iff (kdfP : KdfPrimary) (powProve : PowOracle)
    (challenge pd : List Nat) (gs : List Nat) :
    (∃ cs, collectCiphers kdfP powProve challenge pd gs = .ok cs) ↔
      ∀ g ∈ gs, ∃ v, powProve g (challenge.take 8) pd = .ok v := by
  induction gs with
  | nil => simp [collectCiphers]
  | cons g gs ih =>
    simp only [List.mem_cons]
    constructor
    · rintro ⟨cs, hcs⟩ x hx
      cases hp : powProve g (challenge.take 8) pd with
      | error e => simp [collectCiphers, hp] at hcs
      | ok v =>
        cases hrest : collectCiphers kdfP powProve challenge pd gs with
        | error e => simp [collectCiphers, hp, hrest] at hcs
        | ok rest =>
          rcases hx with rfl | hx
          · exact ⟨v, hp⟩
          · exact (ih.mp ⟨rest, hrest⟩) x hx
    · intro hall
      obtain ⟨v, hp⟩ := hall g (Or.inl rfl)
      obtain ⟨rest, hrest⟩ := ih.mpr fun x hx => hall x (Or.inr hx)
      refine ⟨AesCipher.new kdfP challenge g v :: rest, ?_⟩
      simp [collectCiphers, hp, hrest]

theorem collectCiphers_ok_get (kdfP : KdfPrimary) (powProve : PowOracle)
    (challenge pd : List Nat) :
    ∀ (gs : List Nat) (cs : List AesCipher),
      collectCiphers kdfP powProve challenge pd gs = .ok cs →
      cs.length = gs.length ∧
      ∀ i, i < gs.length → ∃ pw,
        powProve (gs.getD i 0) (challenge.take 8) pd = .ok pw ∧
        cs[i]? = some (AesCipher.new kdfP challenge (gs.getD i 0) pw) := by
  intro gs
  induction gs with
  | nil =>
    intro cs hcs
    simp only [collectCiphers] at hcs
    cases hcs
    simp
  | cons g gs ih =>
    intro cs hcs
    cases hp : powProve g (challenge.take 8) pd with
    | error e => simp [collectCiphers, hp] at hcs
    | ok v =>
      cases hrest : collectCiphers kdfP powProve challenge pd gs with
      | error e => simp [collectCiphers, hp, hrest] at hcs
      | ok rest =>
        simp only [collectCiphers, hp, hrest] at hcs
        cases hcs
        obtain ⟨hlen, hget⟩ := ih rest hrest
        refine ⟨by simp [hlen], ?_⟩
        intro i hi
        cases i with
        | zero => exact ⟨v, by simpa using hp, by simp⟩
        | succ i =>
          obtain ⟨pw, hpw, hcsi⟩ := hget i (by simpa using hi)
          exact ⟨pw, by simpa using hpw, by simpa using hcsi⟩

theorem groupsOf_eq (start stop : Nat) (h16 : start % 16 = 0) (hlt : start < stop)
    (hs16 : (stop - start) % 16 = 0) (hstop : stop < 2 ^ 32) :
    groupsOf start stop = List.range' (start / 16) ((stop - start) / 16) := by
  unfold groupsOf nonce_group_range NONCES_PER_AES
  simp only
  congr 1
  omega

theorem new_shape_error (kdfP : KdfPrimary) (kdfL : KdfLazy) (powProve : PowOracle)
    (challenge : List Nat) (start stop : Nat) (params : ProvingParams)
    (h : ¬(start % 16 = 0 ∧ start < stop ∧ (stop - start) % 16 = 0)) :
    Prover8_56.new kdfP kdfL powProve challenge start stop params =
      .error .invalidNonceRange := by
  by_cases h1 : start % 16 = 0
  · have h2 : ¬(start < stop ∧ (stop - start) % 16 = 0) := fun hc => h ⟨h1, hc⟩
    simp [Prover8_56.new, NONCES_PER_AES, h1, h2]
  · simp [Prover8_56.new, NONCES_PER_AES, h1]

/-- Everything `Prover8_56::new` guarantees about a successfully constructed
prover: validated range shape, cipher-vector lengths, the provenance of each
primary cipher (oracle result for group `start/16 + i`), the provenance of
each lazy cipher (including which `pow` it was given), and the stored
difficulty split. -/
theorem new_ok_spec (kdfP : KdfPrimary) (kdfL : KdfLazy) (powProve : PowOracle)
    (challenge : List Nat) (start stop : Nat) (params : ProvingParams) (p : Prover8_56)
    (hstop : stop < 2 ^ 32)
    (hok : Prover8_56.new kdfP kdfL powProve challenge start stop params = .ok p) :
    start % 16 = 0 ∧ start < stop ∧ (stop - start) % 16 = 0 ∧
    p.ciphers.length = (stop - start) / 16 ∧
    p.lazy_ciphers.length = stop - start ∧
    (∀ i, i < (stop - start) / 16 → ∃ pw,
      powProve (start / 16 + i) (challenge.take 8) params.pow_difficulty = .ok pw ∧
      p.ciphers[i]? = some (AesCipher.new kdfP challenge (start / 16 + i) pw)) ∧
    (∀ j, j < stop - start →
      p.lazy_ciphers[j]? = some (AesCipher.new_lazy kdfL challenge (start + j) ((start + j) / 16)
        ((p.ciphers.getD ((start + j) / 16 % p.ciphers.length) dummyCipher).pow))) ∧
    p.difficulty_msb = (params.difficulty >>> 56) % 256 ∧
    p.difficulty_lsb = params.difficulty &&& 0x00ffffffffffffff := by
  by_cases h1 : start % 16 = 0
  · by_cases h2 : start < stop ∧ (stop - start) % 16 = 0
    · obtain ⟨h2a, h2b⟩ := h2
      rw [Prover8_56.new] at hok
      rw [if_neg (by simp [NONCES_PER_AES, h1]),
        if_neg (by simp [NONCES_PER_AES, h2a, h2b])] at hok
      cases hco : collectCiphers kdfP powProve challenge params.pow_difficulty
          (groupsOf start stop) with
      | error e => rw [hco] at hok; cases hok
      | ok cs =>
        rw [hco] at hok
        cases hok
        rw [groupsOf_eq start stop h1 h2a h2b hstop] at hco
        obtain ⟨hlen, hget⟩ := collectCiphers_ok_get kdfP powProve challenge
          params.pow_difficulty _ cs hco
        rw [List.length_range'] at hlen
        refine ⟨h1, h2a, h2b, hlen, by simp, ?_, ?_, rfl, rfl⟩
        · intro i hi
          obtain ⟨pw, hpw, hcsi⟩ := hget i (by simpa using hi)
          have hgd : (List.range' (start / 16) ((stop - start) / 16)).getD i 0 =
              start / 16 + i := by
            simp [List.getD_eq_getElem?_getD, List.getElem?_range' _ _ hi]
          rw [hgd] at hpw hcsi
          exact ⟨pw, hpw, hcsi⟩
        · intro j hj
          show (List.map _ (List.range' start (stop - start)))[j]? = _
          rw [List.getElem?_map, List.getElem?_range' _ _ hj]
          simp only [Option.map_some', Nat.one_mul]
          rfl
    · rw [new_shape_error kdfP kdfL powProve challenge start stop params
        (fun hc => h2 ⟨hc.2.1, hc.2.2⟩)] at hok
      cases hok
  · rw [new_shape_error kdfP kdfL powProve challenge start stop params
      (fun hc => h1 hc.1)] at hok
    cases hok

theorem and_mask56_eq_mod (x : Nat) : x &&& 0x00ffffffffffffff = x % 2 ^ 56 := by
  have h : (0x00ffffffffffffff : Nat) = 2 ^ 56 - 1 := by norm_num
  rw [h]
  exact Nat.and_pow_two_sub_one_eq_mod x 56

theorem foldl_be_acc (l : List Nat) (acc : Nat) :
    l.foldl (fun acc b => acc * 256 + b % 256) acc =
      acc * 256 ^ l.length + u256_from_big_endian l := by
  induction l generalizing acc with
  | nil => simp [u256_from_big_endian]
  | cons b l ih =>
    simp only [List.foldl_cons, u256_from_big_endian] at *
    rw [ih (acc * 256 + b % 256), ih (0 * 256 + b % 256)]
    simp only [List.length_cons, pow_succ]
    ring

theorem u256_from_big_endian_lt (l : List Nat) :
    u256_from_big_endian l < 256 ^ l.length := by
  induction l with
  | nil => simp [u256_from_big_endian]
  | cons b l ih =>
    have h : u256_from_big_endian (b :: l) =
        (0 * 256 + b % 256) * 256 ^ l.length + u256_from_big_endian l := by
      simp only [u256_from_big_endian, List.foldl_cons]
      exact foldl_be_acc l (0 * 256 + b % 256)
    rw [h]
    have hb : b % 256 < 256 := Nat.mod_lt _ (by omega)
    have h1 : (0 * 256 + b % 256) * 256 ^ l.length ≤ 255 * 256 ^ l.length :=
      Nat.mul_le_mul_right _ (by omega)
    calc (0 * 256 + b % 256) * 256 ^ l.length + u256_from_big_endian l
        < (0 * 256 + b % 256) * 256 ^ l.length + 256 ^ l.length := by omega
      _ ≤ 255 * 256 ^ l.length + 256 ^ l.length := by omega
      _ = 256 ^ (l.length + 1) := by rw [pow_succ]; ring

theorem from_to_digits (k : Nat) (x : Nat) :
    u256_from_big_endian ((List.range k).map fun i => x / 256 ^ (k - 1 - i) % 256) =
      x % 256 ^ k := by
  induction k generalizing x with
  | zero => simp [u256_from_big_endian, Nat.mod_one]
  | succ k ih =>
    rw [List.range_succ_eq_map, List.map_cons, List.map_map]
    have hdig : ((fun i => x / 256 ^ (k + 1 - 1 - i) % 256) ∘ Nat.succ) =
        fun i => x / 256 ^ (k - 1 - i) % 256 := by
      funext i
      simp only [Function.comp]
      rw [show k + 1 - 1 - Nat.succ i = k - 1 - i from by omega]
    rw [hdig]
    have hhead : u256_from_big_endian
        ((x / 256 ^ (k + 1 - 1 - 0) % 256) :: (List.range k).map fun i => x / 256 ^ (k - 1 - i) % 256) =
        (0 * 256 + x / 256 ^ (k + 1 - 1 - 0) % 256 % 256) * 256 ^ k + x % 256 ^ k := by
      simp only [u256_from_big_endian, List.foldl_cons]
      rw [foldl_be_acc]
      simp only [List.length_map, List.length_range]
      rw [show u256_from_big_endian ((List.range k).map fun i => x / 256 ^ (k - 1 - i) % 256) =
        x % 256 ^ k from ih x]
    rw [hhead]
    have hsub : k + 1 - 1 - 0 = k := by omega
    rw [hsub]
    rw [Nat.mod_mod_of_dvd _ dvd_rfl]
    have := @Nat.mod_mul (256 ^ k) 256 x
    rw [pow_succ, this]
    ring

theorem u256_round_trip (x : Nat) (hx : x < 2 ^ 256) :
    u256_from_big_endian (u256_to_big_endian x) = x := by
  unfold u256_to_big_endian
  have h : ((List.range 32).map fun i => x / 256 ^ (31 - i) % 256) =
      (List.range 32).map fun i => x / 256 ^ (32 - 1 - i) % 256 := by
    apply List.map_congr_left
    intro i _
    congr 2
  rw [h, from_to_digits 32 x]
  apply Nat.mod_eq_of_lt
  calc x < 2 ^ 256 := hx
    _ = 256 ^ 32 := by norm_num

/-- C6 (amended): `ProvingParams::new` computes `pow_difficulty` as the
big-endian 256-bit integer `cfg.pow_difficulty` divided (floor) by
`num_units` (with `num_units ≥ 1`; `num_units = 0` panics in Rust).  With
`num_units = 1` the result equals `cfg.pow_difficulty`; with `num_units > 1`
the result is strictly smaller PROVIDED `cfg.pow_difficulty` is nonzero —
when `cfg.pow_difficulty` is the zero target, the scaled target equals it. -/
theorem new_pow_difficulty_scaling (cfg_pow : List Nat) (num_units : Nat)
    (hlen : cfg_pow.length = 32) (_hu : 0 < num_units) :
    u256_from_big_endian (ProvingParams.new_pow_difficulty cfg_pow num_units) =
      u256_from_big_endian cfg_pow / num_units ∧
    (num_units = 1 →
      u256_from_big_endian (ProvingParams.new_pow_difficulty cfg_pow num_units) =
        u256_from_big_endian cfg_pow) ∧
    (1 < num_units → 0 < u256_from_big_endian cfg_pow →
      u256_from_big_endian (ProvingParams.new_pow_difficulty cfg_pow num_units) <
        u256_from_big_endian cfg_pow) := by
  have hlt : u256_from_big_endian cfg_pow < 2 ^ 256 := by
    have h := u256_from_big_endian_lt cfg_pow
    rw [hlen] at h
    calc u256_from_big_endian cfg_pow < 256 ^ 32 := h
      _ = 2 ^ 256 := by norm_num
  have hmain : u256_from_big_endian (ProvingParams.new_pow_difficulty cfg_pow num_units) =
      u256_from_big_endian cfg_pow / num_units := by
    unfold ProvingParams.new_pow_difficulty
    exact u256_round_trip _ (lt_of_le_of_lt (Nat.div_le_self _ _) hlt)
  refine ⟨hmain, ?_, ?_⟩
  · intro h1
    rw [hmain, h1, Nat.div_one]
  · intro h1 h2
    rw [hmain]
    exact Nat.div_lt_self h2 h1

/-- C6 counterexample: with the all-zero 32-byte PoW target and
`num_units = 2 > 1`, the scaled target is NOT strictly smaller — it equals the
original (0 / 2 = 0), contradicting the claim's unconditional strictness. -/
theorem new_pow_difficulty_zero_counterexample :
    (1 : Nat) < 2 ∧
    ProvingParams.new_pow_difficulty (List.replicate 32 0) 2 = List.replicate 32 0 ∧
    ¬ (u256_from_big_endian (ProvingParams.new_pow_difficulty (List.replicate 32 0) 2) <
        u256_from_big_endian (List.replicate 32 0)) := by decide

/-- C6 witness: the amended scaling theorem applied at a concrete nonzero
32-byte target and `num_units = 2`. -/
theorem new_pow_difficulty_scaling_witness :
    ((List.replicate 32 (1 : Nat)).length = 32 ∧ 0 < 2) ∧
    (u256_from_big_endian (ProvingParams.new_pow_difficulty (List.replicate 32 1) 2) =
      u256_from_big_endian (List.replicate 32 1) / 2 ∧
    (2 = 1 →
      u256_from_big_endian (ProvingParams.new_pow_difficulty (List.replicate 32 1) 2) =
        u256_from_big_endian (List.replicate 32 1)) ∧
    (1 < 2 → 0 < u256_from_big_endian (List.replicate 32 1) →
      u256_from_big_endian (ProvingParams.new_pow_difficulty (List.replicate 32 1) 2) <
        u256_from_big_endian (List.replicate 32 1))) :=
  ⟨⟨by decide, by decide⟩,
    new_pow_difficulty_scaling (List.replicate 32 1) 2 (by decide) (by decide)⟩

/-- C8 (amended): when none of the `u32` additions overflow
(`b + per_aes - 1 < 2^32` and `a / per_aes + 1 < 2^32`) and `per_aes > 0`,
`nonce_group_range([a, b), per_aes)` equals
`[a/per_aes, max(a/per_aes + 1, (b + per_aes - 1)/per_aes))`, is never empty,
and covers every group holding a nonce of `[a, b)`.  For `b ≥ 2^32 - per_aes + 1`
the `u32` computation of `b + per_aes - 1` overflows and both the formula and
the coverage fail. -/
theorem nonce_group_range_spec (a b per_aes : Nat) (hper : 0 < per_aes)
    (hb : b + per_aes - 1 < 2 ^ 32) (ha : a / per_aes + 1 < 2 ^ 32) :
    nonce_group_range a b per_aes =
      (a / per_aes, max (a / per_aes + 1) ((b + per_aes - 1) / per_aes)) ∧
    (nonce_group_range a b per_aes).1 < (nonce_group_range a b per_aes).2 ∧
    (∀ n, a ≤ n → n < b →
      (nonce_group_range a b per_aes).1 ≤ n / per_aes ∧
      n / per_aes < (nonce_group_range a b per_aes).2) := by
  have e1 : (a / per_aes + 1) % 2 ^ 32 = a / per_aes + 1 := Nat.mod_eq_of_lt ha
  have e2 : (b + per_aes - 1) % 2 ^ 32 = b + per_aes - 1 := Nat.mod_eq_of_lt hb
  refine ⟨?_, ?_, ?_⟩
  · simp only [nonce_group_range, e1, e2]
  · simp only [nonce_group_range, e1, e2]
    exact lt_of_lt_of_le (Nat.lt_succ_self _) (le_max_left _ _)
  · intro n hna hnb
    simp only [nonce_group_range, e1, e2]
    refine ⟨Nat.div_le_div_right hna, ?_⟩
    have hb1 : 1 ≤ b := by omega
    have hlt : n / per_aes < (b + per_aes - 1) / per_aes := by
      rw [show b + per_aes - 1 = (b - 1) + per_aes from by omega,
        Nat.add_div_right _ hper]
      have h : n / per_aes ≤ (b - 1) / per_aes := Nat.div_le_div_right (by omega)
      omega
    exact lt_of_lt_of_le hlt (le_max_right _ _)

/-- C8 counterexample: at `a = 0`, `b = 4294967290`, `per_aes = 16` the `u32`
computation of `b + per_aes - 1` wraps, so the function returns `0..1` instead
of the claimed `0..268435456`, and the group of nonce `16 ∈ [a, b)` (group 1)
is not covered. -/
theorem nonce_group_range_overflow_counterexample :
    nonce_group_range 0 4294967290 16 = (0, 1) ∧
    max (0 / 16 + 1) ((4294967290 + 16 - 1) / 16) = 268435456 ∧
    (0 ≤ 16 ∧ 16 < 4294967290) ∧
    ¬ ((16 : Nat) / 16 < (nonce_group_range 0 4294967290 16).2) := by decide

/-- C8 witness: the amended theorem applied at the spec's table entry
`(30..48, 16) → 1..3`. -/
theorem nonce_group_range_spec_witness :
    (0 < 16 ∧ 48 + 16 - 1 < 2 ^ 32 ∧ 30 / 16 + 1 < 2 ^ 32) ∧
    (nonce_group_range 30 48 16 =
      (30 / 16, max (30 / 16 + 1) ((48 + 16 - 1) / 16)) ∧
    (nonce_group_range 30 48 16).1 < (nonce_group_range 30 48 16).2 ∧
    (∀ n, 30 ≤ n → n < 48 →
      (nonce_group_range 30 48 16).1 ≤ n / 16 ∧
      n / 16 < (nonce_group_range 30 48 16).2)) :=
  ⟨⟨by decide, by decide, by decide⟩,
    nonce_group_range_spec 30 48 16 (by decide) (by decide) (by decide)⟩

theorem new_ok_iff_collect (kdfP : KdfPrimary) (kdfL : KdfLazy) (powProve : PowOracle)
    (challenge : List Nat) (start stop : Nat) (params : ProvingParams)
    (h1 : start % 16 = 0) (h2a : start < stop) (h2b : (stop - start) % 16 = 0) :
    (∃ p, Prover8_56.new kdfP kdfL powProve challenge start stop params = .ok p) ↔
    (∃ cs, collectCiphers kdfP powProve challenge params.pow_difficulty
      (groupsOf start stop) = .ok cs) := by
  unfold Prover8_56.new
  rw [if_neg (by simp [NONCES_PER_AES, h1]),
    if_neg (by simp [NONCES_PER_AES, h2a, h2b])]
  constructor
  · rintro ⟨p, hok⟩
    cases hco : collectCiphers kdfP powProve challenge params.pow_difficulty
        (groupsOf start stop) with
    | error e => rw [hco] at hok; cases hok
    | ok cs => exact ⟨cs, rfl⟩
  · rintro ⟨cs, hco⟩
    exact ⟨_, by rw [hco]⟩

/-- C5: `Prover8_56::new` fails with the invalid-nonce-range error for every
range violating `start ≡ 0 (mod 16)`, `start < stop`, `(stop-start) ≡ 0 (mod 16)`
— for EVERY PoW oracle, i.e. without consulting it — and for every
shape-valid range it succeeds iff the PoW oracle succeeds on every nonce group
`g ∈ [start/16, stop/16)`; any oracle failure surfaces as a construction
error. -/
theorem new_success_iff (kdfP : KdfPrimary) (kdfL : KdfLazy) (powProve : PowOracle)
    (challenge : List Nat) (start stop : Nat) (params : ProvingParams)
    (hstop : stop < 2 ^ 32) :
    (¬(start % 16 = 0 ∧ start < stop ∧ (stop - start) % 16 = 0) →
      Prover8_56.new kdfP kdfL powProve challenge start stop params =
        .error .invalidNonceRange) ∧
    ((start % 16 = 0 ∧ start < stop ∧ (stop - start) % 16 = 0) →
      ((∃ p, Prover8_56.new kdfP kdfL powProve challenge start stop params = .ok p) ↔
        (∀ g, start / 16 ≤ g → g < stop / 16 →
          ∃ v, powProve g (challenge.take 8) params.pow_difficulty = .ok v))) := by
  constructor
  · exact new_shape_error kdfP kdfL powProve challenge start stop params
  · rintro ⟨h1, h2a, h2b⟩
    rw [new_ok_iff_collect kdfP kdfL powProve challenge start stop params h1 h2a h2b,
      groupsOf_eq start stop h1 h2a h2b hstop,
      collectCiphers_ok_iff]
    constructor
    · intro hall g hg1 hg2
      refine hall g ?_
      rw [List.mem_range'_1]
      omega
    · intro hall g hgmem
      rw [List.mem_range'_1] at hgmem
      exact hall g (by omega) (by omega)

/-- A concrete primary KDF whose block encryption is constantly the zero
block. -/
def kdfPZero : KdfPrimary := fun _ _ _ _ => List.replicate 16 0

/-- A concrete lazy KDF whose block encryption is constantly the zero
block. -/
def kdfLZero : KdfLazy := fun _ _ _ _ _ => List.replicate 16 0

/-- A PoW oracle that always succeeds with 0. -/
def oracleOk : PowOracle := fun _ _ _ => .ok 0

/-- A PoW oracle that returns the queried nonce group as the `pow` value
(makes the provenance of each `pow` observable). -/
def oracleG : PowOracle := fun g _ _ => .ok g

/-- A PoW oracle that always fails. -/
def oracleFail : PowOracle := fun _ _ _ => .error .notFound

/-- A 32-byte all-zero challenge. -/
def challenge0 : List Nat := List.replicate 32 0

/-- Concrete proving parameters with label difficulty 0. -/
def params0 : ProvingParams := ⟨0, List.replicate 32 255⟩

/-- Concrete proving parameters with label difficulty `u64::MAX`. -/
def paramsMax : ProvingParams := ⟨18446744073709551615, List.replicate 32 255⟩

/-- Placeholder prover (never the result of a successful construction that the
development relies on; used only as a `getD` default). -/
def dummyProver : Prover8_56 := ⟨[], [], 0, 0⟩

/-- A `consume` callback that records every `(nonce, index)` pair and never
finalizes. -/
def recorder : List (Nat × Nat) → Nat → Nat → List (Nat × Nat) × Option (List Nat) :=
  fun st n i => (st ++ [(n, i)], none)

theorem feed_recorder (st l : List (Nat × Nat)) :
    feed recorder st l = (st ++ l, none) := by
  induction l generalizing st with
  | nil => simp [feed]
  | cons a t ih =>
    obtain ⟨n, i⟩ := a
    simp [feed, recorder, ih]

/-- C5 witness: for the shape-valid range `0..32` and an always-succeeding
oracle, construction succeeds; obtained from the characterization theorem. -/
theorem new_success_iff_witness :
    (32 < 2 ^ 32 ∧ (0 % 16 = 0 ∧ 0 < 32 ∧ (32 - 0) % 16 = 0)) ∧
    (∃ p, Prover8_56.new kdfPZero kdfLZero oracleOk challenge0 0 32 params0 = .ok p) :=
  ⟨⟨by decide, by decide⟩,
    ((new_success_iff kdfPZero kdfLZero oracleOk challenge0 0 32 params0
      (by decide)).2 (by decide)).mpr (fun g _ _ => ⟨0, rfl⟩)⟩

/-- C9: for every successfully constructed prover and EVERY nonce (also
outside the constructed range), `cipher`, `lazy_cipher` and `get_pow` return
`some`: the lookups index modulo the (nonempty) cipher-vector lengths, so the
`unwrap` inside `check_lsb` cannot panic. -/
theorem cipher_lookups_total (kdfP : KdfPrimary) (kdfL : KdfLazy) (powProve : PowOracle)
    (challenge : List Nat) (start stop : Nat) (params : ProvingParams) (p : Prover8_56)
    (hstop : stop < 2 ^ 32)
    (hok : Prover8_56.new kdfP kdfL powProve challenge start stop params = .ok p)
    (nonce : Nat) :
    (p.cipher nonce).isSome = true ∧ (p.lazy_cipher nonce).isSome = true ∧
    (p.get_pow nonce).isSome = true := by
  obtain ⟨h1, h2a, h2b, hclen, hllen, -, -, -, -⟩ :=
    new_ok_spec kdfP kdfL powProve challenge start stop params p hstop hok
  have hc : 0 < p.ciphers.length := by omega
  have hl : 0 < p.lazy_ciphers.length := by omega
  have hcs : (p.cipher nonce).isSome = true := by
    unfold Prover8_56.cipher
    rw [List.getElem?_eq_getElem (Nat.mod_lt _ hc)]
    rfl
  refine ⟨hcs, ?_, ?_⟩
  · unfold Prover8_56.lazy_cipher
    rw [List.getElem?_eq_getElem (Nat.mod_lt _ hl)]
    rfl
  · unfold Prover8_56.get_pow
    rw [Option.isSome_map']
    exact hcs

/-- The prover constructed over `0..16` with the constant-zero KDFs,
always-zero PoW oracle and difficulty `u64::MAX`. -/
def proverC7s : Prover8_56 :=
  (Prover8_56.new kdfPZero kdfLZero oracleOk challenge0 0 16 paramsMax).toOption.getD dummyProver

/-- C9 witness: the totality theorem applied to a concretely constructed
prover at a nonce far outside its range. -/
theorem cipher_lookups_total_witness :
    (16 < 2 ^ 32 ∧
      Prover8_56.new kdfPZero kdfLZero oracleOk challenge0 0 16 paramsMax = .ok proverC7s) ∧
    ((proverC7s.cipher 123456789).isSome = true ∧
      (proverC7s.lazy_cipher 123456789).isSome = true ∧
      (proverC7s.get_pow 123456789).isSome = true) :=
  ⟨⟨by decide, rfl⟩,
    cipher_lookups_total kdfPZero kdfLZero oracleOk challenge0 0 16 paramsMax proverC7s
      (by decide) rfl 123456789⟩

theorem rel_index_arith (start len r : Nat) (h16 : start % 16 = 0) (hmod : len % 16 = 0)
    (hr : r < len) (hmul : start % len = 0) :
    (start + r) / 16 % (len / 16) = r / 16 ∧
    (start + r) % len = r ∧
    (start + r) / 16 = start / 16 + r / 16 := by
  obtain ⟨q, hq⟩ := Nat.dvd_of_mod_eq_zero hmul
  set L := len / 16 with hL
  have h16L : len = 16 * L := by omega
  set P := L * q with hP
  have hstart : start = 16 * P := by rw [hq, h16L, hP]; ring
  have h3 : (start + r) / 16 = start / 16 + r / 16 := by omega
  refine ⟨?_, ?_, h3⟩
  · rw [h3]
    have hsL : start / 16 = P := by omega
    rw [hsL, hP]
    have hrL : r / 16 < L := by omega
    rw [Nat.add_comm, Nat.add_mul_mod_self_left]
    exact Nat.mod_eq_of_lt hrL
  · rw [hq, Nat.add_comm, Nat.add_mul_mod_self_left]
    exact Nat.mod_eq_of_lt hr

/-- C1 (amended): the prover indexes its cipher vectors by ABSOLUTE nonce —
`cipher(n) = ciphers[(n/16) mod |ciphers|]`, `lazy_cipher(n) =
lazy_ciphers[n mod |lazy_ciphers|]`.  The claimed relative mapping
`ciphers[((n-start)/16) mod |ciphers|]` / `lazy_ciphers[(n-start) mod
|lazy_ciphers|]` (the cipher of `n`'s own group) holds exactly when `start`
is a multiple of the range length `stop - start` — in particular for
`start = 0` and for every range of `generate_proof`'s escalation — but not
for every `start`. -/
theorem cipher_mapping_relative (kdfP : KdfPrimary) (kdfL : KdfLazy) (powProve : PowOracle)
    (challenge : List Nat) (start stop : Nat) (params : ProvingParams) (p : Prover8_56)
    (hstop : stop < 2 ^ 32)
    (hok : Prover8_56.new kdfP kdfL powProve challenge start stop params = .ok p)
    (n : Nat) (hn1 : start ≤ n) (hn2 : n < stop)
    (hmul : start % (stop - start) = 0) :
    p.cipher n = p.ciphers[(n - start) / 16 % p.ciphers.length]? ∧
    p.lazy_cipher n = p.lazy_ciphers[(n - start) % p.lazy_ciphers.length]? ∧
    ∃ c, p.cipher n = some c ∧ c.nonce_group = n / 16 := by
  obtain ⟨h16, hlt, hmod, hclen, hllen, hcget, hlget, -, -⟩ :=
    new_ok_spec kdfP kdfL powProve challenge start stop params p hstop hok
  have harith := rel_index_arith start (stop - start) (n - start) h16 hmod (by omega) hmul
  rw [show start + (n - start) = n from by omega] at harith
  obtain ⟨ha1, ha2, ha3⟩ := harith
  have hrlt : (n - start) / 16 < (stop - start) / 16 := by omega
  have hcip : p.cipher n = p.ciphers[(n - start) / 16]? := by
    unfold Prover8_56.cipher calc_nonce_group NONCES_PER_AES
    rw [hclen, ha1]
  refine ⟨?_, ?_, ?_⟩
  · rw [hcip]
    congr 1
    rw [hclen]
    exact (Nat.mod_eq_of_lt hrlt).symm
  · unfold Prover8_56.lazy_cipher
    rw [hllen, ha2]
    congr 1
    exact (Nat.mod_eq_of_lt (by omega)).symm
  · obtain ⟨pw, hpw, hcg⟩ := hcget ((n - start) / 16) hrlt
    refine ⟨AesCipher.new kdfP challenge (start / 16 + (n - start) / 16) pw, ?_, ?_⟩
    · rw [hcip, hcg]
    · simp only [AesCipher.new]
      omega

/-- The prover constructed over the nonce range `16..48` (valid shape,
nonzero start) with the group-revealing PoW oracle. -/
def proverC1 : Prover8_56 :=
  (Prover8_56.new kdfPZero kdfLZero oracleG challenge0 16 48 params0).toOption.getD dummyProver

/-- C1 counterexample: over the successfully constructed range `16..48`,
`cipher(16)` returns the cipher of nonce group 2 (absolute indexing
`(16/16) mod 2 = 1`), while the claimed `ciphers[((16-16)/16) mod 2] =
ciphers[0]` is the cipher of group 1 — the relative mapping fails for
`start = 16`. -/
theorem cipher_relative_mapping_counterexample :
    (Prover8_56.new kdfPZero kdfLZero oracleG challenge0 16 48 params0).toOption.isSome = true ∧
    (proverC1.cipher 16).map AesCipher.nonce_group = some 2 ∧
    (proverC1.ciphers[(16 - 16) / 16 % proverC1.ciphers.length]?).map AesCipher.nonce_group =
      some 1 ∧
    (2 : Nat) ≠ 1 := by decide

/-- C1 witness: the amended mapping theorem applied to the prover over
`0..32` (where `start` is a multiple of the range length) at nonce 17. -/
theorem cipher_mapping_relative_witness :
    (32 < 2 ^ 32 ∧
      Prover8_56.new kdfPZero kdfLZero oracleG challenge0 0 32 params0 = .ok
        ((Prover8_56.new kdfPZero kdfLZero oracleG challenge0 0 32 params0).toOption.getD
          dummyProver) ∧
      (0 : Nat) ≤ 17 ∧ (17 : Nat) < 32 ∧ (0 : Nat) % (32 - 0) = 0) ∧
    (((Prover8_56.new kdfPZero kdfLZero oracleG challenge0 0 32 params0).toOption.getD
        dummyProver).cipher 17 =
      ((Prover8_56.new kdfPZero kdfLZero oracleG challenge0 0 32 params0).toOption.getD
        dummyProver).ciphers[(17 - 0) / 16 %
          ((Prover8_56.new kdfPZero kdfLZero oracleG challenge0 0 32 params0).toOption.getD
            dummyProver).ciphers.length]? ∧
    ((Prover8_56.new kdfPZero kdfLZero oracleG challenge0 0 32 params0).toOption.getD
        dummyProver).lazy_cipher 17 =
      ((Prover8_56.new kdfPZero kdfLZero oracleG challenge0 0 32 params0).toOption.getD
        dummyProver).lazy_ciphers[(17 - 0) %
          ((Prover8_56.new kdfPZero kdfLZero oracleG challenge0 0 32 params0).toOption.getD
            dummyProver).lazy_ciphers.length]? ∧
    ∃ c, ((Prover8_56.new kdfPZero kdfLZero oracleG challenge0 0 32 params0).toOption.getD
        dummyProver).cipher 17 = some c ∧ c.nonce_group = 17 / 16) :=
  ⟨⟨by decide, rfl, by decide, by decide, by decide⟩,
    cipher_mapping_relative kdfPZero kdfLZero oracleG challenge0 0 32 params0
      ((Prover8_56.new kdfPZero kdfLZero oracleG challenge0 0 32 params0).toOption.getD
        dummyProver)
      (by decide) rfl 17 (by decide) (by decide) (by decide)⟩

/-- C4 (amended): the lazy cipher for nonce `n` is built with the `pow` of
`ciphers[(n/16) mod |ciphers|]` — the ABSOLUTE group index.  This is the
`pow` of `n`'s own group exactly when `start` is a multiple of the range
length (in particular `start = 0` and every range of `generate_proof`'s
escalation); for such ranges the lazy cipher's `pow` equals the `pow` of the
primary cipher of group `n/16`. -/
theorem lazy_pow_group (kdfP : KdfPrimary) (kdfL : KdfLazy) (powProve : PowOracle)
    (challenge : List Nat) (start stop : Nat) (params : ProvingParams) (p : Prover8_56)
    (hstop : stop < 2 ^ 32)
    (hok : Prover8_56.new kdfP kdfL powProve challenge start stop params = .ok p)
    (n : Nat) (hn1 : start ≤ n) (hn2 : n < stop)
    (hmul : start % (stop - start) = 0) :
    ∃ c cl, p.ciphers[(n - start) / 16]? = some c ∧ c.nonce_group = n / 16 ∧
      p.lazy_ciphers[n - start]? = some cl ∧ cl.pow = c.pow := by
  obtain ⟨h16, hlt, hmod, hclen, hllen, hcget, hlget, -, -⟩ :=
    new_ok_spec kdfP kdfL powProve challenge start stop params p hstop hok
  have harith := rel_index_arith start (stop - start) (n - start) h16 hmod (by omega) hmul
  rw [show start + (n - start) = n from by omega] at harith
  obtain ⟨ha1, ha2, ha3⟩ := harith
  have hrlt : (n - start) / 16 < (stop - start) / 16 := by omega
  obtain ⟨pw, hpw, hcg⟩ := hcget ((n - start) / 16) hrlt
  have hlz := hlget (n - start) (by omega)
  rw [show start + (n - start) = n from by omega] at hlz
  have hgd : p.ciphers.getD (n / 16 % p.ciphers.length) dummyCipher =
      AesCipher.new kdfP challenge (start / 16 + (n - start) / 16) pw := by
    rw [List.getD_eq_getElem?_getD, hclen, ha1, hcg]
    rfl
  refine ⟨AesCipher.new kdfP challenge (start / 16 + (n - start) / 16) pw, _, hcg, ?_, hlz, ?_⟩
  · simp only [AesCipher.new]
    omega
  · rw [hgd]
    rfl

/-- C4 counterexample: over the constructed range `16..48` with a PoW oracle
returning the group number as `pow`, the lazy cipher of nonce 16 (group 1)
is built with `pow = 2` — the `pow` of `ciphers[(16/16) mod 2] = ciphers[1]`,
which belongs to group 2 — not with its own group's `pow = 1`. -/
theorem lazy_pow_relative_counterexample :
    (Prover8_56.new kdfPZero kdfLZero oracleG challenge0 16 48 params0).toOption.isSome = true ∧
    (proverC1.ciphers[0]?).map AesCipher.nonce_group = some 1 ∧
    (proverC1.ciphers[0]?).map AesCipher.pow = some 1 ∧
    (proverC1.lazy_ciphers[0]?).map AesCipher.pow = some 2 ∧
    (2 : Nat) ≠ 1 := by decide

/-- C4 witness: the amended theorem applied to the prover over `0..32` with
the group-revealing oracle, at nonce 20 (group 1). -/
theorem lazy_pow_group_witness :
    (32 < 2 ^ 32 ∧
      Prover8_56.new kdfPZero kdfLZero oracleG challenge0 0 32 params0 = .ok
        ((Prover8_56.new kdfPZero kdfLZero oracleG challenge0 0 32 params0).toOption.getD
          dummyProver) ∧
      (0 : Nat) ≤ 20 ∧ (20 : Nat) < 32 ∧ (0 : Nat) % (32 - 0) = 0) ∧
    (∃ c cl, ((Prover8_56.new kdfPZero kdfLZero oracleG challenge0 0 32 params0).toOption.getD
        dummyProver).ciphers[(20 - 0) / 16]? = some c ∧ c.nonce_group = 20 / 16 ∧
      ((Prover8_56.new kdfPZero kdfLZero oracleG challenge0 0 32 params0).toOption.getD
        dummyProver).lazy_ciphers[20 - 0]? = some cl ∧ cl.pow = c.pow) :=
  ⟨⟨by decide, rfl, by decide, by decide, by decide⟩,
    lazy_pow_group kdfPZero kdfLZero oracleG challenge0 0 32 params0
      ((Prover8_56.new kdfPZero kdfLZero oracleG challenge0 0 32 params0).toOption.getD
        dummyProver)
      (by decide) rfl 20 (by decide) (by decide) (by decide)⟩

/-- A concrete prover used to witness theorems quantified over arbitrary
provers. -/
def proverTiny : Prover8_56 :=
  ⟨[⟨fun _ => List.replicate 16 0, 0, 0⟩], [⟨fun _ => List.replicate 16 7, 0, 0⟩], 255, 5⟩

/-- C3: `check_lsb` invokes `consume` (and thereby emits) iff the 16-byte AES
encryption of the label under the nonce's secondary cipher, with its first 8
bytes read as a little-endian `u64` and masked to the low 56 bits
(`x &&& 0x00ff_ffff_ffff_ffff = x % 2^56`), is `< difficulty_lsb`; on pass
the index passed to `consume` is `base_index + offset / 16`. -/
theorem check_lsb_spec (p : Prover8_56) (label : List Nat)
    (nonce nonce_offset base_index : Nat)
    (consume : σ → Nat → Nat → σ × Option (List Nat)) (st : σ)
    (_hne : p.lazy_ciphers ≠ []) :
    p.check_lsb label nonce nonce_offset base_index consume st =
      if leU64 (((p.lazy_ciphers.getD (nonce % p.lazy_ciphers.length) dummyCipher).aes
            label).take 8) % 2 ^ 56 < p.difficulty_lsb then
        match consume st nonce (base_index + nonce_offset / 16) with
        | (st2, some indexes) => (st2, some (nonce, indexes))
        | (st2, none) => (st2, none)
      else (st, none) := by
  unfold Prover8_56.check_lsb lsbTest
  simp only [and_mask56_eq_mod]
  rfl

/-- C3 witness: the `check_lsb` characterization applied to a concrete
prover, label and callback. -/
theorem check_lsb_spec_witness :
    proverTiny.lazy_ciphers ≠ [] ∧
    proverTiny.check_lsb (List.replicate 16 3) 0 5 100 recorder [] =
      (if leU64 (((proverTiny.lazy_ciphers.getD (0 % proverTiny.lazy_ciphers.length)
            dummyCipher).aes (List.replicate 16 3)).take 8) % 2 ^ 56 <
          proverTiny.difficulty_lsb then
        match recorder [] 0 (100 + 5 / 16) with
        | (st2, some indexes) => (st2, some (0, indexes))
        | (st2, none) => (st2, none)
      else ([], none)) :=
  ⟨by simp [proverTiny], check_lsb_spec proverTiny (List.replicate 16 3) 0 5 100 recorder []
    (by simp [proverTiny])⟩

theorem chunksExact128_take_aux (k : Nat) : ∀ l : List α, l.length ≤ k →
    chunksExact 128 (l.take (l.length / 128 * 128)) = chunksExact 128 l := by
  induction k with
  | zero =>
    intro l hl
    have h0 : l = [] := List.eq_nil_of_length_eq_zero (by omega)
    subst h0
    simp
  | succ k ih =>
    intro l hl
    by_cases h : 128 ≤ l.length
    · have hM : 128 ≤ l.length / 128 * 128 := by omega
      have hMle : l.length / 128 * 128 ≤ l.length := Nat.div_mul_le_self _ _
      have e1 : chunksExact 128 l = l.take 128 :: chunksExact 128 (l.drop 128) := by
        rw [chunksExact_eq]
        rw [if_pos ⟨by omega, h⟩]
      have e2 : chunksExact 128 (l.take (l.length / 128 * 128)) =
          (l.take (l.length / 128 * 128)).take 128 ::
            chunksExact 128 ((l.take (l.length / 128 * 128)).drop 128) := by
        rw [chunksExact_eq]
        rw [if_pos ⟨by omega, by rw [List.length_take]; omega⟩]
      rw [e1, e2]
      congr 1
      · rw [List.take_take]
        congr 1
        omega
      · have hsplit : List.drop 128 (List.take (l.length / 128 * 128) l) =
            List.take (l.length / 128 * 128 - 128) (List.drop 128 l) := by
          rw [List.take_drop, show 128 + (l.length / 128 * 128 - 128) =
            l.length / 128 * 128 from by omega]
        rw [hsplit]
        have harith : l.length / 128 * 128 - 128 = (l.length - 128) / 128 * 128 := by omega
        have hdl : (l.drop 128).length = l.length - 128 := by simp
        rw [harith, ← hdl]
        exact ih (l.drop 128) (by rw [List.length_drop]; omega)
    · have h0 : l.length / 128 = 0 := by omega
      rw [h0]
      simp only [Nat.zero_mul, List.take_zero]
      have e1 : chunksExact 128 ([] : List α) = [] := by
        rw [chunksExact_eq]
        rw [if_neg (by simp)]
      have e2 : chunksExact 128 l = [] := by
        rw [chunksExact_eq]
        rw [if_neg (by push_neg; intro; omega)]
      rw [e1, e2]

theorem chunksExact128_take (l : List α) :
    chunksExact 128 (l.take (l.length / 128 * 128)) = chunksExact 128 l :=
  chunksExact128_take_aux l.length l (le_refl _)

/-- C10: `prove` never fails on a batch whose length is not a multiple of
128: `chunks_exact` silently drops the trailing partial chunk, so the result
(including every `consume` call) is the same as on the batch truncated to the
largest multiple of 128 bytes. -/
theorem prove_ignores_trailing_fragment (p : Prover8_56) (batch : List Nat) (index : Nat)
    (consume : σ → Nat → Nat → σ × Option (List Nat)) (st : σ)
    (_hlen : batch.length % 128 ≠ 0) :
    p.prove batch index consume st =
      p.prove (batch.take (batch.length / 128 * 128)) index consume st := by
  unfold Prover8_56.prove
  rw [chunksExact128_take]

set_option maxRecDepth 40000 in
/-- C10 witness: a 200-byte batch (one full chunk plus a 72-byte fragment)
behaves exactly like its 128-byte truncation. -/
theorem prove_ignores_trailing_fragment_witness :
    (List.replicate 200 (0 : Nat)).length % 128 ≠ 0 ∧
    proverTiny.prove (List.replicate 200 0) 0 recorder [] =
      proverTiny.prove ((List.replicate 200 0).take
        ((List.replicate 200 (0 : Nat)).length / 128 * 128)) 0 recorder [] :=
  ⟨by decide, prove_ignores_trailing_fragment proverTiny (List.replicate 200 0) 0 recorder []
    (by decide)⟩

/-- The LSB check exactly as the spec words it (§4.5): first 8 bytes of the
secondary-cipher encryption as a little-endian `u64`, low 56 bits
(`% 2^56`), compared against `difficulty_lsb`. -/
def lsbSpec (p : Prover8_56) (label : List Nat) (nonce : Nat) : Prop :=
  leU64 (((p.lazy_ciphers.getD (nonce % p.lazy_ciphers.length) dummyCipher).aes label).take 8) %
    2 ^ 56 < p.difficulty_lsb

instance (p : Prover8_56) (label : List Nat) (nonce : Nat) :
    Decidable (lsbSpec p label nonce) :=
  Nat.decLt _ _

theorem lsbTest_iff_lsbSpec (p : Prover8_56) (label : List Nat) (nonce : Nat) :
    lsbTest p label nonce ↔ lsbSpec p label nonce := by
  unfold lsbTest lsbSpec
  rw [and_mask56_eq_mod]

/-- The claim's per-byte emission rule (C2, spec §4.4): with `u` the 128-byte
encryption of the chunk, offset `o` emits `(n, idx)` — `n = g*16 + (o mod 16)`,
`idx = base + 8*c + o/16` — exactly when `u[o] < difficulty_msb`, or
`u[o] = difficulty_msb` and the §4.5 LSB check passes on the label at offset
`(o/16)*16` of the chunk. -/
def emitSpec (p : Prover8_56) (c : AesCipher) (chunk : List Nat) (base cpos o : Nat) :
    Option (Nat × Nat) :=
  let u := encryptChunk c.aes chunk
  if u.getD o 0 < p.difficulty_msb ∨
      (u.getD o 0 = p.difficulty_msb ∧
        lsbSpec p ((chunk.drop (o / 16 * 16)).take 16) (c.nonce_group * 16 + o % 16)) then
    some (c.nonce_group * 16 + o % 16, base + 8 * cpos + o / 16)
  else none

/-- The full emission sequence the claim describes: chunks in order (position
`c`), primary ciphers in order, byte offsets `0..128` in order. -/
def emissionsSpec (p : Prover8_56) (batch : List Nat) (base : Nat) : List (Nat × Nat) :=
  (chunksExact 128 batch).enum.flatMap fun ce =>
    p.ciphers.flatMap fun c => (List.range 128).filterMap (emitSpec p c ce.2 base ce.1)

theorem emitOff_eq_emitSpec (p : Prover8_56) (c : AesCipher) (chunk : List Nat)
    (base cpos o : Nat) :
    emitOff p c chunk (encryptChunk c.aes chunk) (base + 8 * cpos) o =
      emitSpec p c chunk base cpos o := by
  unfold emitOff emitSpec calc_nonce NONCES_PER_AES
  simp only
  by_cases h1 : (encryptChunk c.aes chunk).getD o 0 < p.difficulty_msb
  · rw [if_pos (le_of_lt h1), if_neg (Nat.ne_of_lt h1), if_pos (Or.inl h1)]
  · by_cases h2 : (encryptChunk c.aes chunk).getD o 0 = p.difficulty_msb
    · rw [if_pos (le_of_eq h2), if_pos h2]
      by_cases h3 : lsbTest p ((chunk.drop (o / 16 * 16)).take 16) (c.nonce_group * 16 + o % 16)
      · rw [if_pos h3,
          if_pos (Or.inr ⟨h2, (lsbTest_iff_lsbSpec p _ _).mp h3⟩)]
      · rw [if_neg h3, if_neg ?_]
        rintro (hc | ⟨-, hc⟩)
        · exact h1 hc
        · exact h3 ((lsbTest_iff_lsbSpec p _ _).mpr hc)
    · have hle : ¬ (encryptChunk c.aes chunk).getD o 0 ≤ p.difficulty_msb := by omega
      rw [if_neg hle, if_neg ?_]
      rintro (hc | ⟨hc, -⟩)
      · exact h1 hc
      · exact h2 hc

theorem emitSpec_succ (p : Prover8_56) (c : AesCipher) (chunk : List Nat)
    (base cpos o : Nat) :
    emitSpec p c chunk base (cpos + 1) o = emitSpec p c chunk (base + 8) cpos o := by
  unfold emitSpec
  simp only
  rw [show base + 8 * (cpos + 1) + o / 16 = base + 8 + 8 * cpos + o / 16 from by ring]

theorem flatMap_congr {l : List α} {f g : α → List β} (h : ∀ a ∈ l, f a = g a) :
    l.flatMap f = l.flatMap g := by
  induction l with
  | nil => rfl
  | cons a t ih =>
    rw [List.flatMap_cons, List.flatMap_cons, h a (by simp), ih fun x hx => h x (by simp [hx])]

theorem emissionsFrom_eq_spec (p : Prover8_56) (chunks : List (List Nat)) (base : Nat) :
    emissionsFrom p base chunks = chunks.enum.flatMap fun ce =>
      p.ciphers.flatMap fun c => (List.range 128).filterMap (emitSpec p c ce.2 base ce.1) := by
  induction chunks generalizing base with
  | nil => simp [emissionsFrom]
  | cons chunk rest ih =>
    rw [emissionsFrom, List.enum_cons', List.flatMap_cons, ih (base + 8), List.flatMap_map]
    congr 1
    · unfold chunkEmissions
      have hpt : ∀ c : AesCipher,
          (List.range 128).filterMap
            (emitOff p c chunk (encryptChunk c.aes chunk) base) =
          (List.range 128).filterMap (emitSpec p c chunk base 0) := by
        intro c
        congr 1
        funext o
        have h0 := emitOff_eq_emitSpec p c chunk base 0 o
        rw [show base + 8 * 0 = base from by ring] at h0
        exact h0
      simp only [hpt]
    · apply flatMap_congr
      rintro ⟨i, ch⟩ -
      simp only [Function.comp, Prod.map_apply, id_eq]
      apply flatMap_congr
      intro c _hc
      congr 1
      funext o
      exact (emitSpec_succ p c ch base i o).symm

/-- C2: on a batch whose length is a multiple of 128, `prove` behaves exactly
as the claim describes: it feeds `consume`, in order — chunks at position
`c`, primary ciphers with group `g`, byte offsets `o ∈ [0, 128)` — the pair
`(g*16 + o mod 16, base + 8*c + o/16)` precisely for the bytes with
`u[o] < difficulty_msb`, or `u[o] = difficulty_msb` and a passing §4.5 LSB
check on the label at offset `(o/16)*16` of the chunk (no other byte emits),
and returns `Some (nonce, list)` immediately the first time `consume`
finalizes (`feed` stops at the first finalized answer). -/
theorem prove_matches_emission_spec (p : Prover8_56) (batch : List Nat) (base : Nat)
    (consume : σ → Nat → Nat → σ × Option (List Nat)) (st : σ)
    (_hlen : batch.length % 128 = 0) :
    p.prove batch base consume st = feed consume st (emissionsSpec p batch base) := by
  rw [prove_eq_feed, emissionsSpec, emissionsFrom_eq_spec]

set_option maxRecDepth 40000 in
/-- C2 witness: the emission characterization applied to a concrete prover
and a 128-byte batch, with a recording callback. -/
theorem prove_matches_emission_spec_witness :
    (List.replicate 128 (0 : Nat)).length % 128 = 0 ∧
    proverTiny.prove (List.replicate 128 0) 0 recorder [] =
      feed recorder [] (emissionsSpec proverTiny (List.replicate 128 0) 0) :=
  ⟨by decide, prove_matches_emission_spec proverTiny (List.replicate 128 0) 0 recorder []
    (by decide)⟩

theorem filterMap_eq_map_of_forall {l : List α} {f : α → Option β} {g : α → β}
    (h : ∀ a ∈ l, f a = some (g a)) : l.filterMap f = l.map g := by
  induction l with
  | nil => rfl
  | cons a t ih =>
    rw [List.filterMap_cons, h a (by simp), List.map_cons,
      ih fun x hx => h x (by simp [hx])]

theorem range_mul_map (J K : Nat) (f : Nat → Nat → α) :
    (List.range (J * K)).map (fun o => f (o / K) (o % K)) =
      (List.range J).flatMap fun j => (List.range K).map fun k => f j k := by
  induction J with
  | zero => simp
  | succ J ih =>
    rw [show (J + 1) * K = J * K + K from by ring, List.range_add, List.map_append, ih,
      List.range_succ, List.flatMap_append, List.flatMap_cons, List.flatMap_nil,
      List.append_nil, List.map_map]
    congr 1
    apply List.map_congr_left
    intro k hk
    have hkK : k < K := List.mem_range.mp hk
    have hK : 0 < K := by omega
    simp only [Function.comp]
    have hdiv : (J * K + k) / K = J := by
      rw [Nat.add_comm, Nat.mul_comm, Nat.add_mul_div_left _ _ hK, Nat.div_eq_of_lt hkK]
      omega
    have hmod : (J * K + k) % K = k := by
      rw [Nat.add_comm, Nat.mul_comm, Nat.add_mul_mod_self_left]
      exact Nat.mod_eq_of_lt hkK
    rw [hdiv, hmod]

theorem chunksExact_replicate (n : Nat) (hn : 0 < n) (a : α) (m : Nat) :
    chunksExact n (List.replicate (n * m) a) = List.replicate m (List.replicate n a) := by
  induction m with
  | zero =>
    rw [Nat.mul_zero, List.replicate_zero, chunksExact_eq]
    rw [if_neg (by simp; omega)]
    rfl
  | succ m ih =>
    have hle : n ≤ n * (m + 1) := by rw [Nat.mul_succ]; omega
    rw [chunksExact_eq]
    rw [if_pos ⟨hn, by simpa [List.length_replicate] using hle⟩]
    rw [List.take_replicate, List.drop_replicate]
    congr 1
    · congr 1
      exact Nat.min_eq_left hle
    · rw [show n * (m + 1) - n = n * m from by rw [Nat.mul_succ]; omega, ih]

/-- C7 (amended): for a prover constructed over a SINGLE nonce group
`[start, start+16)` with difficulty `u64::MAX`, on an all-zero batch, and
provided no byte of the chunk encryption equals `0xFF` (a `0xFF` byte would
tie on the MSB and emit only if the LSB check passes), the pairs passed to
`consume` are exactly: for each label position `p ∈ [0, batch_len/16)` in
increasing order, for each nonce `n ∈ [start, start+16)` in increasing
order, the pair `(n, p)`.  For ranges spanning several nonce groups the
emission order is chunk-major then GROUP-major (all 8 labels of a chunk for
one group before the next group), not label-major over the whole range as
the claim states. -/
theorem prove_zero_batch_trace (kdfP : KdfPrimary) (kdfL : KdfLazy) (powProve : PowOracle)
    (challenge : List Nat) (start : Nat) (params : ProvingParams) (p : Prover8_56) (m : Nat)
    (hstop : start + 16 < 2 ^ 32)
    (hok : Prover8_56.new kdfP kdfL powProve challenge start (start + 16) params = .ok p)
    (hdiff : params.difficulty = 18446744073709551615)
    (hu : ∀ o, o < 128 →
      (encryptChunk (p.ciphers.getD 0 dummyCipher).aes (List.replicate 128 0)).getD o 0 < 255) :
    p.prove (List.replicate (128 * m) 0) 0 recorder [] =
      ((List.range (8 * m)).flatMap fun j => (List.range 16).map fun k => (start + k, j),
        none) := by
  obtain ⟨h16, hlt, hmod, hclen, hllen, hcget, hlget, hmsb, hlsb⟩ :=
    new_ok_spec kdfP kdfL powProve challenge start (start + 16) params p hstop hok
  have hclen1 : p.ciphers.length = 1 := by omega
  obtain ⟨pw, hpw, hc0⟩ := hcget 0 (by omega)
  have hcs : p.ciphers = [AesCipher.new kdfP challenge (start / 16 + 0) pw] := by
    cases hl : p.ciphers with
    | nil => rw [hl] at hclen1; simp at hclen1
    | cons a t =>
      cases t with
      | nil =>
        rw [hl] at hc0
        simp only [List.getElem?_cons_zero, Option.some_inj] at hc0
        rw [hc0]
      | cons b t2 => rw [hl] at hclen1; simp at hclen1
  have hmsb255 : p.difficulty_msb = 255 := by
    rw [hmsb, hdiff]
    decide
  have hgd0 : p.ciphers.getD 0 dummyCipher = AesCipher.new kdfP challenge (start / 16 + 0) pw := by
    rw [hcs]
    rfl
  rw [hgd0] at hu
  have hchunk : ∀ base, chunkEmissions p (List.replicate 128 0) base =
      (List.range 8).flatMap fun j => (List.range 16).map fun k => (start + k, base + j) := by
    intro base
    unfold chunkEmissions
    rw [hcs, List.flatMap_cons, List.flatMap_nil, List.append_nil]
    have hemit : ∀ o ∈ List.range 128,
        emitOff p (AesCipher.new kdfP challenge (start / 16 + 0) pw) (List.replicate 128 0)
          (encryptChunk (AesCipher.new kdfP challenge (start / 16 + 0) pw).aes
            (List.replicate 128 0)) base o =
        some (start + o % 16, base + o / 16) := by
      intro o ho
      have ho128 : o < 128 := List.mem_range.mp ho
      have hb := hu o ho128
      simp only [emitOff, calc_nonce, NONCES_PER_AES]
      rw [if_pos (by omega), if_neg (by omega)]
      have hng : (AesCipher.new kdfP challenge (start / 16 + 0) pw).nonce_group =
          start / 16 + 0 := rfl
      rw [hng, show (start / 16 + 0) * 16 + o % 16 = start + o % 16 from by omega]
    rw [filterMap_eq_map_of_forall hemit]
    rw [show (128 : Nat) = 8 * 16 from by norm_num]
    exact range_mul_map 8 16 fun j k => (start + k, base + j)
  have hmain : ∀ (mm base : Nat),
      emissionsFrom p base (List.replicate mm (List.replicate 128 0)) =
        (List.range (8 * mm)).flatMap fun j =>
          (List.range 16).map fun k => (start + k, base + j) := by
    intro mm
    induction mm with
    | zero => intro base; simp [emissionsFrom]
    | succ mm ih =>
      intro base
      rw [List.replicate_succ, emissionsFrom, hchunk base, ih (base + 8)]
      rw [show 8 * (mm + 1) = 8 + 8 * mm from by ring, List.range_add, List.flatMap_append,
        List.flatMap_map]
      congr 1
      apply flatMap_congr
      intro j _
      show List.map (fun k => (start + k, base + 8 + j)) (List.range 16) =
        List.map (fun k => (start + k, base + (8 + j))) (List.range 16)
      apply List.map_congr_left
      intro k _
      rw [Nat.add_assoc]
  rw [prove_eq_feed, chunksExact_replicate 128 (by norm_num) 0 m, hmain m 0, feed_recorder]
  simp only [List.nil_append, Nat.zero_add]

/-- The prover constructed over the TWO-group range `0..32` with constant-zero
KDFs and difficulty `u64::MAX`. -/
def proverC7 : Prover8_56 :=
  (Prover8_56.new kdfPZero kdfLZero oracleOk challenge0 0 32 paramsMax).toOption.getD dummyProver

set_option maxRecDepth 100000 in
/-- C7 counterexample: over the two-group range `0..32`, with all-zero labels
and difficulty `u64::MAX`, the emission order is NOT "for each label
position, for each nonce in `[0, 32)`": the prover scans all 8 labels of the
chunk under group 0's cipher (nonces `0..16`) before touching group 1, so
the 17th pair is `(0, 1)` rather than the claimed `(16, 0)`. -/
theorem prove_zero_batch_order_counterexample :
    (Prover8_56.new kdfPZero kdfLZero oracleOk challenge0 0 32 paramsMax).toOption.isSome =
      true ∧
    proverC7.prove (List.replicate 128 0) 0 recorder [] ≠
      ((List.range 8).flatMap fun j => (List.range 32).map fun k => ((k : Nat), (j : Nat)),
        none) := by
  refine ⟨by decide, ?_⟩
  intro h
  have h16 := congrArg (fun r => r.1[16]?) h
  simp only at h16
  exact absurd h16 (by decide)

set_option maxRecDepth 100000 in
/-- C7 witness: the amended trace theorem applied to the concretely
constructed single-group prover `proverC7s` on one all-zero chunk. -/
theorem prove_zero_batch_trace_witness :
    (0 + 16 < 2 ^ 32 ∧
      Prover8_56.new kdfPZero kdfLZero oracleOk challenge0 0 16 paramsMax = .ok proverC7s ∧
      paramsMax.difficulty = 18446744073709551615 ∧
      (∀ o, o < 128 →
        (encryptChunk (proverC7s.ciphers.getD 0 dummyCipher).aes
          (List.replicate 128 0)).getD o 0 < 255)) ∧
    proverC7s.prove (List.replicate (128 * 1) 0) 0 recorder [] =
      ((List.range (8 * 1)).flatMap fun j => (List.range 16).map fun k => (0 + k, j), none) :=
  ⟨⟨by decide, rfl, rfl, by decide⟩,
    prove_zero_batch_trace kdfPZero kdfLZero oracleOk challenge0 0 paramsMax proverC7s 1
      (by decide) rfl rfl (by decide)⟩
